import Mathlib

/-!
Verification development for the multilingual-ir-system repository
(`src/retrival_system.py`), a hybrid (semantic + BM25) retrieval engine.

The Python source is shallowly embedded here:

* Python floats are modelled by `ℚ` (exact arithmetic; the claims under
  study are about exact score formulas, not rounding).
* `pandas` missing values (`NaN`, as produced by the outer merge) are
  modelled by `Option ℚ`; arithmetic on a missing value propagates
  `none`, as `NaN` propagates through pandas arithmetic, and the model
  of `Series.max()` skips `none` entries exactly as `skipna=True` does.
* `pandas.sort_values(ascending=False)` is modelled as the stable
  descending sort with missing keys placed last (`na_position` defaults
  to `"last"`).  numpy's default quicksort runs plain insertion sort on
  the small frames considered here, which is stable, so ties keep the
  pre-sort row order.
* `math.log` / the natural logarithm inside the BM25 weight is modelled
  by an arbitrary function parameter `lg : ℚ → ℚ`; every argument the
  code passes to it is rational.  Facts that depend on properties of the
  real logarithm take those properties as hypotheses (for instance that
  `ln` is non-negative on `[1, ∞)`).
* The `rank_bm25.BM25Okapi` ranker is an external library whose code is
  not part of this repository; its behaviour is modelled from the spec
  (section 4.2), see `get_scores` below.
* The Chroma vector store is an external collaborator; the semantic
  candidate list returned by `search_multilingual` is a parameter
  (`semRaw`) of the hybrid search model, and a failing semantic backend
  is modelled with `Except` in `search_hybrid_exc`.
-/

namespace MultilingualIR

/-! ## Text normalizer (`preprocess_text`, `tokenize`, source lines 20-23 and 63-65) -/

/-- Whitespace characters recognised by Python's `str.strip()` and the
regex class `\s` (restricted to the ASCII range; the multilingual test
inputs in this development contain no exotic Unicode whitespace). -/
def isPySpace (c : Char) : Bool :=
  c = ' ' || c = '\t' || c = '\n' || c = '\r' || c = '\x0b' || c = '\x0c'

/-- Python `str.strip()`: drop leading and trailing whitespace. -/
def pyStrip (s : List Char) : List Char :=
  ((s.dropWhile isPySpace).reverse.dropWhile isPySpace).reverse

/-- Worker for `collapseWs`: `inRun` records whether the previous
character was part of a whitespace run already replaced by a space. -/
def collapseAux : Bool → List Char → List Char
  | _, [] => []
  | inRun, c :: cs =>
    if isPySpace c then
      if inRun then collapseAux true cs else ' ' :: collapseAux true cs
    else c :: collapseAux false cs

/-- Python `re.sub(r"\s+", " ", s)`: replace every maximal whitespace
run by a single space. -/
def collapseWs (s : List Char) : List Char :=
  collapseAux false s

/-- The string path of `preprocess_text` (source lines 21-22):
`str.strip()` followed by `re.sub(r"\s+", " ", ...)`. -/
def preprocessString (s : String) : String :=
  String.mk (collapseWs (pyStrip s.data))

/-- A fragment of Python's value universe, as far as it can reach
`preprocess_text` (which accepts any value and calls `str()` on it). -/
inductive PyValue where
  | pyNone
  | pyBool (b : Bool)
  | pyInt (n : Int)
  | pyStr (s : String)
deriving DecidableEq

/-- Python's `str()` coercion on the modelled value fragment. -/
def pyToStr : PyValue → String
  | PyValue.pyNone => "None"
  | PyValue.pyBool b => if b then "True" else "False"
  | PyValue.pyInt n => toString n
  | PyValue.pyStr s => s

/-- Model of `preprocess_text` (source lines 20-23): coerce the argument with
`str()`, strip it, and collapse interior whitespace runs. -/
def preprocess_text (v : PyValue) : String :=
  preprocessString (pyToStr v)

/-- Worker for `pySplit`: accumulate the current word (reversed). -/
def splitAux : List Char → List Char → List (List Char)
  | cur, [] => if cur.isEmpty then [] else [cur.reverse]
  | cur, c :: cs =>
    if isPySpace c then
      if cur.isEmpty then splitAux [] cs else cur.reverse :: splitAux [] cs
    else splitAux (c :: cur) cs

/-- Python `str.split()` with no argument: split on whitespace runs and
drop empty fields. -/
def pySplit (s : List Char) : List (List Char) :=
  splitAux [] s

/-- Model of `tokenize` (source lines 63-65): normalize, lowercase, split on
whitespace.  `Char.toLower` models Python's `str.lower()` (simple case
folding; only the ASCII range matters for the inputs used here). -/
def tokenize (s : String) : List String :=
  (pySplit (((preprocessString s).data).map Char.toLower)).map String.mk

/-! ## Lexical index (`build_bm25_index`, `search_bm25`, source lines 68-85) -/

/-- One corpus document as carried in `meta` (`doc_id`, `lang`, `text`). -/
structure Doc where
  doc_id : Nat
  lang : String
  text : String
deriving DecidableEq

/-- Modelled from the spec: the state of the external `rank_bm25.BM25Okapi`
ranker, whose code is not part of this repository.  Per spec section 4.2
the index caches the tokenized documents; every corpus statistic below
(document count, document frequency, average document length) is derived
from them. -/
structure BM25 where
  tokenized : List (List String)
deriving DecidableEq

/-- BM25 free parameter `k1 = 1.5` (spec section 4.2). -/
def k1 : ℚ := 3 / 2

/-- BM25 free parameter `b = 0.75` (spec section 4.2). -/
def bVal : ℚ := 3 / 4

/-- Number of indexed documents (`N` in the spec formula). -/
def corpusSize (x : BM25) : Nat :=
  x.tokenized.length

/-- Token list of the `d`-th document. -/
def docTokens (x : BM25) (d : Nat) : List String :=
  x.tokenized.getD d []

/-- Total token count over the corpus. -/
def totalLen (x : BM25) : ℚ :=
  (x.tokenized.map (fun dtoks => ((dtoks.length : ℚ)))).sum

/-- Modelled from the spec: `avgdl`, the mean token count per document.
With rational division `avgdl = 0` for the empty corpus, matching the
spec requirement that an empty index scores everything `0`. -/
def avgdl (x : BM25) : ℚ :=
  totalLen x / (corpusSize x : ℚ)

/-- Term frequency `f(t, d)` of token `t` in a tokenized document. -/
def termFreq (t : String) (dtoks : List String) : Nat :=
  dtoks.count t

/-- Document frequency `n(t)`: number of documents containing `t`. -/
def docFreq (x : BM25) (t : String) : Nat :=
  (x.tokenized.filter (fun dtoks => dtoks.contains t)).length

/-- Modelled from the spec:
`IDF(t) = ln(1 + (N - n(t) + 0.5)/(n(t) + 0.5))`, with terms absent from
the corpus contributing `0` (spec section 4.2).  `lg` stands for the
natural logarithm. -/
def idf (lg : ℚ → ℚ) (x : BM25) (t : String) : ℚ :=
  if docFreq x t = 0 then 0
  else lg (1 + ((corpusSize x : ℚ) - (docFreq x t : ℚ) + 1 / 2) / ((docFreq x t : ℚ) + 1 / 2))

/-- The term-frequency factor of the BM25 summand:
`f(t,d)·(k1+1) / (f(t,d) + k1·(1 - b + b·|d|/avgdl))`. -/
def tfWeight (x : BM25) (dtoks : List String) (t : String) : ℚ :=
  ((termFreq t dtoks : ℚ) * (k1 + 1)) /
    ((termFreq t dtoks : ℚ) + k1 * (1 - bVal + bVal * (dtoks.length : ℚ) / avgdl x))

/-- Per-term score vector (one entry per document, in corpus order). -/
def termVec (lg : ℚ → ℚ) (x : BM25) (t : String) : List ℚ :=
  x.tokenized.map (fun dtoks => idf lg x t * tfWeight x dtoks t)

/-- Pointwise sum of two score vectors. -/
def addVec (u v : List ℚ) : List ℚ :=
  List.zipWith (· + ·) u v

/-- The all-zero score vector. -/
def zerosVec (n : Nat) : List ℚ :=
  List.replicate n 0

/-- Modelled from the spec: `BM25Okapi.get_scores` (external library),
which starts from the zero vector and accumulates one score vector per
query token (spec section 4.2 sums the same summands per document). -/
def get_scores (lg : ℚ → ℚ) (x : BM25) (tokens : List String) : List ℚ :=
  tokens.foldl (fun acc t => addVec acc (termVec lg x t)) (zerosVec (corpusSize x))

/-- Model of `build_bm25_index` (source lines 68-73): tokenize every document's
text and keep the metadata frame alongside the ranker. -/
def build_bm25_index (corpus : List Doc) : BM25 × List Doc :=
  (⟨corpus.map (fun dq => tokenize dq.text)⟩, corpus)

/-! ## The model of `pandas.sort_values(ascending=False)`

Rows are decorated with their pre-sort position; the comparator orders
by key descending, places missing keys last (`na_position="last"`), and
breaks ties by pre-sort position, which is exactly what a stable
descending sort does.  Sorting itself is Mathlib's `insertionSort`. -/

/-- Comparator on position-decorated rows: score descending, missing
scores last, ties kept in pre-sort order. -/
def rowLe (key : α → Option ℚ) (p q : Nat × α) : Bool :=
  match key p.2, key q.2 with
  | some x, some y => decide (y < x) || (decide (x = y) && decide (p.1 ≤ q.1))
  | some _, none => true
  | none, some _ => false
  | none, none => decide (p.1 ≤ q.1)

/-- The comparator as a relation, for Mathlib's sorting lemmas. -/
def RowRel (key : α → Option ℚ) : Nat × α → Nat × α → Prop :=
  fun p q => rowLe key p q = true

instance (key : α → Option ℚ) : DecidableRel (RowRel key) :=
  fun p q => inferInstanceAs (Decidable (rowLe key p q = true))

instance (key : α → Option ℚ) : IsTotal (Nat × α) (RowRel key) := by
  constructor
  intro p q
  unfold RowRel rowLe
  rcases hkp : key p.2 with _ | x <;> rcases hkq : key q.2 with _ | y <;>
    simp only [Bool.or_eq_true, Bool.and_eq_true, decide_eq_true_eq]
  · omega
  · exact Or.inr trivial
  · exact Or.inl trivial
  · rcases lt_trichotomy x y with h | h | h
    · exact Or.inr (Or.inl h)
    · rcases Nat.le_total p.1 q.1 with hi | hi
      · exact Or.inl (Or.inr ⟨h, hi⟩)
      · exact Or.inr (Or.inr ⟨h.symm, hi⟩)
    · exact Or.inl (Or.inl h)

instance (key : α → Option ℚ) : IsTrans (Nat × α) (RowRel key) := by
  constructor
  intro p q s hpq hqs
  unfold RowRel rowLe at hpq hqs ⊢
  rcases hkp : key p.2 with _ | x <;> rcases hkq : key q.2 with _ | y <;>
    rcases hks : key s.2 with _ | z <;>
    simp only [hkp, hkq, hks, Bool.or_eq_true, Bool.and_eq_true,
      decide_eq_true_eq] at hpq hqs ⊢ <;>
    try first
      | omega
      | exact Bool.noConfusion hpq
      | exact Bool.noConfusion hqs
  rcases hpq with h1 | h1 <;> rcases hqs with h2 | h2
  · exact Or.inl (h2.trans h1)
  · exact Or.inl (h2.1 ▸ h1)
  · exact Or.inl (by rw [h1.1]; exact h2)
  · exact Or.inr ⟨h1.1.trans h2.1, h1.2.trans h2.2⟩

/-- Model of `sort_values(by=key, ascending=False)`: decorate rows with their
position, sort with the stable descending comparator, drop positions. -/
def sortByKey (key : α → Option ℚ) (l : List α) : List α :=
  (List.insertionSort (RowRel key) l.enum).map (fun p => p.2)

/-- Output rows of `search_bm25` (`rank, bm25_score, doc_id, lang, text`,
source line 85). -/
structure BmRow where
  rank : Nat
  bm25_score : ℚ
  doc_id : Nat
  lang : String
  text : String
deriving DecidableEq

/-- Model of `search_bm25` (source lines 76-85): score every document, attach the
scores to the metadata frame positionally, sort descending, truncate to
`top_k`, and assign 1-based ranks. -/
def mkBmRow (p : Nat × (Doc × ℚ)) : BmRow :=
  ⟨p.1 + 1, p.2.2, p.2.1.doc_id, p.2.1.lang, p.2.1.text⟩

def search_bm25 (lg : ℚ → ℚ) (x : BM25) (meta : List Doc) (query : String)
    (top_k : Nat) : List BmRow :=
  let tokens := tokenize query
  let scores := get_scores lg x tokens
  let tmp := meta.zip scores
  let sorted := sortByKey (fun p => some p.2) tmp
  let top := sorted.take top_k
  top.enum.map mkBmRow

/-! ## Rank fusion (`search_hybrid`, source lines 88-122) -/

/-- One row of `df_sem` as consumed by the fusion (source line 95):
the semantic candidate list returned by the external vector store via
`search_multilingual`, with `sem_score` a distance. -/
structure SemRow where
  doc_id : Nat
  lang : String
  text : String
  sem_score : ℚ
deriving DecidableEq

/-- One row of the outer-merged frame (source lines 94-100).  Fields of
the side a `doc_id` is missing from are `NaN`, modelled as `none`. -/
structure JoinRow where
  doc_id : Nat
  lang_sem : Option String
  text_sem : Option String
  sem_score : Option ℚ
  lang_bm : Option String
  text_bm : Option String
  bm25_score : Option ℚ
deriving DecidableEq

/-- Model of `pd.merge(..., on="doc_id", how="outer")` for frames whose `doc_id`
keys are unique (the spec's Document invariant): every left row keeps
its position and is completed with the matching right row if any; right
rows with unmatched keys follow. -/
def outerMerge (ls : List SemRow) (rs : List BmRow) : List JoinRow :=
  (ls.map (fun l =>
    match rs.find? (fun r => r.doc_id == l.doc_id) with
    | some r =>
      ⟨l.doc_id, some l.lang, some l.text, some l.sem_score,
        some r.lang, some r.text, some r.bm25_score⟩
    | none =>
      ⟨l.doc_id, some l.lang, some l.text, some l.sem_score, none, none, none⟩))
  ++ ((rs.filter (fun r => !(ls.any (fun l => l.doc_id == r.doc_id)))).map
    (fun r => ⟨r.doc_id, none, none, none, some r.lang, some r.text, some r.bm25_score⟩))

/-- Model of `Series.combine_first` (source lines 102-103): first non-missing
value wins, preferring the semantic copy. -/
def combineFirst (o₁ o₂ : Option String) : Option String :=
  match o₁ with
  | some v => some v
  | none => o₂

/-- Extends `max` by a missing absorbing element, for `colMax`. -/
def maxOpt (v : ℚ) (m : Option ℚ) : Option ℚ :=
  match m with
  | none => some v
  | some w => some (max v w)

/-- Model of `Series.max()` with the default `skipna=True`: maximum of the
non-missing entries, `NaN` (here `none`) if there are none. -/
def colMax : List (Option ℚ) → Option ℚ
  | [] => none
  | none :: xs => colMax xs
  | some v :: xs => maxOpt v (colMax xs)

/-- The spec's wording of a stream maximum: the maximum raw score over
the candidates that carry one (spec section 4.4). -/
def specStreamMax (col : List (Option ℚ)) : Option ℚ :=
  match col.filterMap id with
  | [] => none
  | v :: vs => some (vs.foldl max v)

/-- Semantic normalization column rule (source lines 108 and 111-112):
the column starts at `0.0` and is replaced by `1 - sem_score/sem_max`
whenever `sem_max` is non-missing and nonzero; the replacement maps a
missing raw score to `NaN`. -/
def semNormOf (m s : Option ℚ) : Option ℚ :=
  match m with
  | none => some 0
  | some mv => if mv = 0 then some 0 else s.map (fun v => 1 - v / mv)

/-- Lexical normalization column rule (source lines 109 and 114-115):
the column starts at `0.0` and is replaced by `bm25_score/bm_max`
whenever `bm_max` is non-missing and nonzero. -/
def bmNormOf (m s : Option ℚ) : Option ℚ :=
  match m with
  | none => some 0
  | some mv => if mv = 0 then some 0 else s.map (fun v => v / mv)

/-- The combination `hybrid_score = alpha * sem_norm + (1 - alpha) * bm25_norm` (source
line 117), with `NaN` propagation. -/
def hybridOf (alpha : ℚ) (sn bn : Option ℚ) : Option ℚ :=
  match sn, bn with
  | some a, some b => some (alpha * a + (1 - alpha) * b)
  | _, _ => none

/-- One row of the fused frame after normalization (source lines
102-117). -/
structure FusedRow where
  doc_id : Nat
  lang : Option String
  text : Option String
  sem_score : Option ℚ
  bm25_score : Option ℚ
  sem_norm : Option ℚ
  bm25_norm : Option ℚ
  hybrid_score : Option ℚ
deriving DecidableEq

/-- Builds one fused row from a merged row, given both stream maxima. -/
def fuseOne (semMax bmMax : Option ℚ) (alpha : ℚ) (r : JoinRow) : FusedRow :=
  let sn := semNormOf semMax r.sem_score
  let bn := bmNormOf bmMax r.bm25_score
  ⟨r.doc_id, combineFirst r.lang_sem r.lang_bm, combineFirst r.text_sem r.text_bm,
    r.sem_score, r.bm25_score, sn, bn, hybridOf alpha sn bn⟩

/-- Normalization and hybrid scoring over the merged frame (source
lines 102-117): both maxima are taken over the merged columns. -/
def fuseRows (alpha : ℚ) (j : List JoinRow) : List FusedRow :=
  let semMax := colMax (j.map (fun r => r.sem_score))
  let bmMax := colMax (j.map (fun r => r.bm25_score))
  j.map (fuseOne semMax bmMax alpha)

/-- One row of `search_hybrid`'s result (source line 122). -/
structure OutRow where
  rank : Nat
  hybrid_score : Option ℚ
  doc_id : Nat
  lang : Option String
  text : Option String
deriving DecidableEq

/-- The lexical candidate set of a hybrid query: `search_bm25` asked for
`top_k * 2` candidates (source line 92). -/
def bmCandidates (lg : ℚ → ℚ) (x : BM25) (meta : List Doc) (query : String)
    (top_k : Nat) : List BmRow :=
  search_bm25 lg x meta query (top_k * 2)

/-- The outer-merged frame of a hybrid query (source lines 94-100).
`semRaw` is the candidate list the external vector store returned for
the query (source lines 89-90). -/
def joinedTable (semRaw : List SemRow) (lg : ℚ → ℚ) (x : BM25) (meta : List Doc)
    (query : String) (top_k : Nat) : List JoinRow :=
  outerMerge semRaw (bmCandidates lg x meta query top_k)

/-- The fused frame of a hybrid query before sorting (source lines
102-117). -/
def fusedTable (semRaw : List SemRow) (lg : ℚ → ℚ) (x : BM25) (meta : List Doc)
    (query : String) (top_k : Nat) (alpha : ℚ) : List FusedRow :=
  fuseRows alpha (joinedTable semRaw lg x meta query top_k)

/-- Model of `search_hybrid` (source lines 88-122): merge both candidate sets,
normalize, score, sort descending by `hybrid_score`, truncate to
`top_k`, assign 1-based ranks. -/
def mkOutRow (p : Nat × FusedRow) : OutRow :=
  ⟨p.1 + 1, p.2.hybrid_score, p.2.doc_id, p.2.lang, p.2.text⟩

def search_hybrid (semRaw : List SemRow) (lg : ℚ → ℚ) (x : BM25) (meta : List Doc)
    (query : String) (top_k : Nat) (alpha : ℚ) : List OutRow :=
  let sorted := sortByKey (fun fr => fr.hybrid_score) (fusedTable semRaw lg x meta query top_k alpha)
  (sorted.take top_k).enum.map mkOutRow

/-- Model of `search_hybrid` under Python exception semantics: the first thing
the function does is call the semantic backend (source line 89), and no
`try`/`except` surrounds it, so a raising backend propagates out of
`search_hybrid`; `semRes` is the outcome of that call. -/
def search_hybrid_exc (semRes : Except String (List SemRow)) (lg : ℚ → ℚ) (x : BM25)
    (meta : List Doc) (query : String) (top_k : Nat) (alpha : ℚ) :
    Except String (List OutRow) :=
  match semRes with
  | Except.error e => Except.error e
  | Except.ok semRaw => Except.ok (search_hybrid semRaw lg x meta query top_k alpha)

/-- The descending order a sorted score column satisfies, with missing
scores (`NaN`) allowed only at the bottom. -/
def optDescLe (a b : Option ℚ) : Prop :=
  match a, b with
  | some x, some y => y ≤ x
  | _, none => True
  | none, some _ => False

/-! ### Concrete inputs used by witnesses and counterexamples -/

/-- A concrete stand-in for the natural logarithm in closed evaluations
whose outcome does not depend on the logarithm's actual values. -/
def lgId : ℚ → ℚ := fun q => q

/-- A concrete logarithm stand-in that is zero everywhere (trivially
non-negative on `[1, ∞)`). -/
def lgZero : ℚ → ℚ := fun _ => 0

/-- Two-document corpus with identical texts (used to produce lexical
score ties). -/
def corpusA : List Doc := [⟨1, "en", "a"⟩, ⟨2, "en", "a"⟩]

def xA : BM25 := (build_bm25_index corpusA).1

def metaA : List Doc := (build_bm25_index corpusA).2

/-- A semantic candidate set containing only document 1 (distance 1), so
that document 2 is lexical-only in a hybrid query over `corpusA`. -/
def semA : List SemRow := [⟨1, "en", "a", 1⟩]

/-- Two-document corpus with identical texts and doc_ids in descending
order, for the tie-break counterexample. -/
def corpusT : List Doc := [⟨5, "en", "x"⟩, ⟨3, "en", "x"⟩]

def xT : BM25 := (build_bm25_index corpusT).1

def metaT : List Doc := (build_bm25_index corpusT).2

/-- One-document corpus for witnesses. -/
def corpusW : List Doc := [⟨1, "en", "a"⟩]

def xW : BM25 := (build_bm25_index corpusW).1

def metaW : List Doc := (build_bm25_index corpusW).2

/-- A semantic candidate set whose only distance is `0`. -/
def semW : List SemRow := [⟨1, "en", "a", 0⟩]

/-- Default fused row used with `headD` in closed statements. -/
def defaultFused : FusedRow := ⟨0, none, none, none, none, none, none, none⟩

/-- Default output row used with `headD` in closed statements. -/
def defaultOut : OutRow := ⟨0, none, 0, none, none⟩

/-- The spec's claim that a hybrid score "lies in `[0,1]`": a missing
(`NaN`) score does not. -/
def scoreInUnit (o : Option ℚ) : Prop :=
  ∃ h : ℚ, o = some h ∧ 0 ≤ h ∧ h ≤ 1

/-- The ordering property claimed for `search_bm25` output: descending
scores with equal scores ordered by ascending `doc_id` (checked on
adjacent rows, which suffices for a transitive order). -/
def bmSortedClaim : List BmRow → Bool
  | [] => true
  | [_] => true
  | a :: b :: rest =>
    (decide (b.bm25_score < a.bm25_score)
      || (decide (a.bm25_score = b.bm25_score) && decide (a.doc_id < b.doc_id)))
    && bmSortedClaim (b :: rest)

/-! ## Helper lemmas -/

lemma snd_mem_of_mem_enumFrom {α : Type _} {p : Nat × α} :
    ∀ {n : Nat} {l : List α}, p ∈ List.enumFrom n l → p.2 ∈ l := by
  intro n l
  induction l generalizing n with
  | nil => intro h; exact absurd h (List.not_mem_nil p)
  | cons x xs ih =>
    intro h
    rcases List.mem_cons.mp (show p ∈ (n, x) :: List.enumFrom (n + 1) xs from h) with h | h
    · rw [h]
      exact List.mem_cons_self x xs
    · exact List.mem_cons_of_mem x (ih h)

lemma snd_mem_of_mem_enum {α : Type _} {p : Nat × α} {l : List α}
    (h : p ∈ l.enum) : p.2 ∈ l :=
  snd_mem_of_mem_enumFrom h

lemma enumFrom_map_fst_add_one {α : Type _} :
    ∀ (l : List α) (n : Nat),
      (List.enumFrom n l).map (fun p => p.1 + 1) = List.range' (n + 1) l.length := by
  intro l
  induction l with
  | nil => intro n; rfl
  | cons x xs ih =>
    intro n
    simp only [List.enumFrom, List.map_cons, List.length_cons, List.range'_succ]
    exact congrArg (List.cons (n + 1)) (ih (n + 1))

lemma enum_map_fst_add_one {α : Type _} (l : List α) :
    l.enum.map (fun p => p.1 + 1) = List.range' 1 l.length :=
  enumFrom_map_fst_add_one l 0

lemma enumFrom_map_snd {α : Type _} :
    ∀ (l : List α) (n : Nat), (List.enumFrom n l).map (fun p => p.2) = l := by
  intro l
  induction l with
  | nil => intro n; rfl
  | cons x xs ih =>
    intro n
    simp only [List.enumFrom, List.map_cons]
    exact congrArg (List.cons x) (ih (n + 1))

lemma enum_map_snd' {α : Type _} (l : List α) : l.enum.map (fun p => p.2) = l :=
  enumFrom_map_snd l 0

lemma length_enumFrom' {α : Type _} :
    ∀ (l : List α) (n : Nat), (List.enumFrom n l).length = l.length := by
  intro l
  induction l with
  | nil => intro n; rfl
  | cons x xs ih =>
    intro n
    simp only [List.enumFrom, List.length_cons]
    exact congrArg Nat.succ (ih (n + 1))

/-! ### Score vector lemmas -/

lemma length_addVec (u v : List ℚ) : (addVec u v).length = min u.length v.length :=
  List.length_zipWith (· + ·) u v

lemma length_termVec (lg : ℚ → ℚ) (x : BM25) (t : String) :
    (termVec lg x t).length = corpusSize x :=
  List.length_map x.tokenized _

lemma length_zerosVec (n : Nat) : (zerosVec n).length = n :=
  List.length_replicate n 0

lemma getD_addVec :
    ∀ (u v : List ℚ), u.length = v.length →
      ∀ d : Nat, (addVec u v).getD d 0 = u.getD d 0 + v.getD d 0 := by
  intro u
  induction u with
  | nil =>
    intro v hv d
    have : v = [] := List.eq_nil_of_length_eq_zero hv.symm
    subst this
    simp [addVec]
  | cons a us ih =>
    intro v hv d
    rcases v with _ | ⟨b, vs⟩
    · exact absurd hv (by simp)
    · rcases d with _ | d
      · simp [addVec]
      · simpa [addVec, List.getD] using ih vs (by simpa using hv) d

lemma getD_zerosVec (n d : Nat) : (zerosVec n).getD d 0 = 0 := by
  unfold zerosVec
  rcases Nat.lt_or_ge d n with h | h
  · rw [List.getD_eq_getElem _ _ (by simpa using h)]
    simp
  · rw [List.getD_eq_default _ _ (by simpa using h)]

lemma length_get_scores (lg : ℚ → ℚ) (x : BM25) (tokens : List String) :
    (get_scores lg x tokens).length = corpusSize x := by
  unfold get_scores
  have aux : ∀ (ts : List String) (acc : List ℚ), acc.length = corpusSize x →
      (ts.foldl (fun acc t => addVec acc (termVec lg x t)) acc).length = corpusSize x := by
    intro ts
    induction ts with
    | nil => intro acc h; exact h
    | cons t ts ih =>
      intro acc h
      refine ih _ ?_
      rw [length_addVec, h, length_termVec]
      exact Nat.min_self _
  exact aux _ _ (length_zerosVec _)

/-- Unfolding the accumulating loop of `get_scores` into the per-document
sum of per-term summands. -/
lemma getD_get_scores (lg : ℚ → ℚ) (x : BM25) (tokens : List String) (d : Nat) :
    (get_scores lg x tokens).getD d 0
      = (tokens.map (fun t => (termVec lg x t).getD d 0)).sum := by
  unfold get_scores
  have aux : ∀ (ts : List String) (acc : List ℚ), acc.length = corpusSize x →
      (ts.foldl (fun acc t => addVec acc (termVec lg x t)) acc).getD d 0
        = acc.getD d 0 + (ts.map (fun t => (termVec lg x t).getD d 0)).sum := by
    intro ts
    induction ts with
    | nil => intro acc h; simp
    | cons t ts ih =>
      intro acc h
      have hlen : (addVec acc (termVec lg x t)).length = corpusSize x := by
        rw [length_addVec, h, length_termVec]
        exact Nat.min_self _
      calc ((t :: ts).foldl (fun acc t => addVec acc (termVec lg x t)) acc).getD d 0
          = (ts.foldl (fun acc t => addVec acc (termVec lg x t))
              (addVec acc (termVec lg x t))).getD d 0 := rfl
        _ = (addVec acc (termVec lg x t)).getD d 0
              + (ts.map (fun t => (termVec lg x t).getD d 0)).sum := ih _ hlen
        _ = acc.getD d 0 + ((termVec lg x t).getD d 0
              + (ts.map (fun t => (termVec lg x t).getD d 0)).sum) := by
            rw [getD_addVec acc _ (by rw [h, length_termVec]) d]
            ring
        _ = acc.getD d 0 + ((t :: ts).map (fun t => (termVec lg x t).getD d 0)).sum := by
            simp
  rw [aux _ _ (length_zerosVec _), getD_zerosVec]
  ring

lemma getD_termVec (lg : ℚ → ℚ) (x : BM25) (t : String) (d : Nat) (hd : d < corpusSize x) :
    (termVec lg x t).getD d 0 = idf lg x t * tfWeight x (docTokens x d) t := by
  unfold termVec docTokens
  rw [List.getD_eq_getElem _ _ (by simpa [corpusSize] using hd)]
  rw [List.getElem_map]
  rw [List.getD_eq_getElem _ _ (by simpa [corpusSize] using hd)]

/-! ### Column-maximum lemmas -/

lemma foldl_max_max (l : List ℚ) : ∀ a b : ℚ, l.foldl max (max a b) = max a (l.foldl max b) := by
  induction l with
  | nil => intro a b; rfl
  | cons c cs ih =>
    intro a b
    show cs.foldl max (max (max a b) c) = max a (cs.foldl max (max b c))
    rw [max_assoc, ih a (max b c)]

lemma colMax_cons_none (xs : List (Option ℚ)) : colMax (none :: xs) = colMax xs := rfl

lemma colMax_cons_some (v : ℚ) (xs : List (Option ℚ)) :
    colMax (some v :: xs) = maxOpt v (colMax xs) := rfl

/-- The model of `Series.max()` agrees with the spec's "maximum raw score over the
candidate set" (maximum of the non-missing entries). -/
lemma colMax_eq_specStreamMax : ∀ col : List (Option ℚ), colMax col = specStreamMax col := by
  intro col
  induction col with
  | nil => rfl
  | cons x xs ih =>
    have hfmn : List.filterMap id (none :: xs) = List.filterMap id xs := by simp
    have hfms : ∀ v : ℚ, List.filterMap id (some v :: xs) = v :: List.filterMap id xs := by
      intro v
      simp
    rcases x with _ | v
    · rw [colMax_cons_none, ih]
      unfold specStreamMax
      rw [hfmn]
    · rw [colMax_cons_some, ih]
      unfold specStreamMax
      rcases hx : xs.filterMap id with _ | ⟨w, ws⟩ <;> rw [hfms v, hx]
      · rfl
      · show some (max v (ws.foldl max w)) = some (ws.foldl max (max v w))
        rw [foldl_max_max ws v w]

lemma colMax_none_not_mem : ∀ {col : List (Option ℚ)} {v : ℚ},
    colMax col = none → some v ∉ col := by
  intro col
  induction col with
  | nil => intro v _ hv; exact List.not_mem_nil _ hv
  | cons x xs ih =>
    intro v hm hv
    rcases hx : x with _ | w
    · subst hx
      rw [colMax_cons_none] at hm
      rcases List.mem_cons.mp hv with h | h
      · exact Option.noConfusion h
      · exact ih hm h
    · subst hx
      rw [colMax_cons_some] at hm
      rcases hxs : colMax xs with _ | m' <;> rw [hxs] at hm <;> exact Option.noConfusion hm

lemma le_colMax : ∀ {col : List (Option ℚ)} {v m : ℚ},
    some v ∈ col → colMax col = some m → v ≤ m := by
  intro col
  induction col with
  | nil => intro v m hv; exact absurd hv (List.not_mem_nil _)
  | cons x xs ih =>
    intro v m hv hm
    rcases List.mem_cons.mp hv with hx | hx
    · rw [← hx, colMax_cons_some] at hm
      rcases hxs : colMax xs with _ | m'
      · rw [hxs] at hm
        simp only [maxOpt, Option.some.injEq] at hm
        exact le_of_eq hm
      · rw [hxs] at hm
        simp only [maxOpt, Option.some.injEq] at hm
        rw [← hm]
        exact le_max_left v m'
    · rcases hx2 : x with _ | w
      · subst hx2
        rw [colMax_cons_none] at hm
        exact ih hx hm
      · subst hx2
        rw [colMax_cons_some] at hm
        rcases hxs : colMax xs with _ | m'
        · exact absurd hx (colMax_none_not_mem hxs)
        · rw [hxs] at hm
          simp only [maxOpt, Option.some.injEq] at hm
          exact le_trans (ih hx hxs) (hm ▸ le_max_right w m')

/-! ### Sorting lemmas -/

lemma rowRel_optDescLe {α : Type _} {key : α → Option ℚ} {p q : Nat × α}
    (h : RowRel key p q) : optDescLe (key p.2) (key q.2) := by
  unfold RowRel rowLe at h
  unfold optDescLe
  rcases hkp : key p.2 with _ | x <;> rcases hkq : key q.2 with _ | y <;>
    rw [hkp, hkq] at h <;>
    simp only [Bool.or_eq_true, Bool.and_eq_true, decide_eq_true_eq] at h ⊢
  · exact Bool.noConfusion h
  · rcases h with h | h
    · exact le_of_lt h
    · exact le_of_eq h.1.symm

lemma mem_sortByKey {α : Type _} (key : α → Option ℚ) (l : List α) (a : α) :
    a ∈ sortByKey key l ↔ a ∈ l := by
  unfold sortByKey
  constructor
  · intro h
    rcases List.mem_map.mp h with ⟨p, hp, hpa⟩
    have : p ∈ l.enum := (List.mem_insertionSort (RowRel key)).mp hp
    exact hpa ▸ snd_mem_of_mem_enum this
  · intro h
    have h2 : a ∈ l.enum.map (fun p => p.2) := by
      rw [enum_map_snd' l]
      exact h
    rcases List.mem_map.mp h2 with ⟨p, hp, hpa⟩
    exact List.mem_map.mpr ⟨p, (List.mem_insertionSort (RowRel key)).mpr hp, hpa⟩

lemma length_sortByKey {α : Type _} (key : α → Option ℚ) (l : List α) :
    (sortByKey key l).length = l.length := by
  unfold sortByKey
  rw [List.length_map, List.length_insertionSort]
  exact length_enumFrom' l 0

/-- The sorted frame is pairwise descending on the sort key. -/
lemma pairwise_sortByKey {α : Type _} (key : α → Option ℚ) (l : List α) :
    ((sortByKey key l).map key).Pairwise optDescLe := by
  unfold sortByKey
  have hs : (List.insertionSort (RowRel key) l.enum).Pairwise (RowRel key) :=
    List.sorted_insertionSort (RowRel key) l.enum
  rw [List.map_map]
  rw [List.pairwise_map]
  exact hs.imp (fun h => rowRel_optDescLe h)

/-! ### Outer-merge lemmas -/

lemma outerMerge_sem_score {ls : List SemRow} {rs : List BmRow} {r : JoinRow}
    (h : r ∈ outerMerge ls rs) :
    r.sem_score = none ∨ ∃ l ∈ ls, r.sem_score = some l.sem_score := by
  rcases List.mem_append.mp h with h | h
  · rcases List.mem_map.mp h with ⟨l, hl, hlr⟩
    refine Or.inr ⟨l, hl, ?_⟩
    rcases hf : rs.find? (fun r => r.doc_id == l.doc_id) with _ | r0 <;>
      rw [← hlr] <;> simp [hf]
  · rcases List.mem_map.mp h with ⟨r0, _, hr0⟩
    exact Or.inl (by rw [← hr0])

lemma outerMerge_bm_score {ls : List SemRow} {rs : List BmRow} {r : JoinRow}
    (h : r ∈ outerMerge ls rs) :
    r.bm25_score = none ∨ ∃ b ∈ rs, r.bm25_score = some b.bm25_score := by
  rcases List.mem_append.mp h with h | h
  · rcases List.mem_map.mp h with ⟨l, hl, hlr⟩
    rcases hf : rs.find? (fun r => r.doc_id == l.doc_id) with _ | r0
    · refine Or.inl ?_
      rw [← hlr]
      simp [hf]
    · refine Or.inr ⟨r0, List.mem_of_find?_eq_some hf, ?_⟩
      rw [← hlr]
      simp [hf]
  · rcases List.mem_map.mp h with ⟨r0, hr0m, hr0⟩
    refine Or.inr ⟨r0, (List.mem_filter.mp hr0m).1, ?_⟩
    rw [← hr0]

lemma outerMerge_sem_none_bm {ls : List SemRow} {rs : List BmRow} {r : JoinRow}
    (h : r ∈ outerMerge ls rs) (hs : r.sem_score = none) :
    ∃ b ∈ rs, r.bm25_score = some b.bm25_score := by
  rcases List.mem_append.mp h with h | h
  · rcases List.mem_map.mp h with ⟨l, _, hlr⟩
    exfalso
    rcases hf : rs.find? (fun r => r.doc_id == l.doc_id) with _ | r0 <;>
      rw [← hlr] at hs <;> simp [hf] at hs
  · rcases List.mem_map.mp h with ⟨r0, hr0m, hr0⟩
    refine ⟨r0, (List.mem_filter.mp hr0m).1, ?_⟩
    rw [← hr0]

lemma outerMerge_bm_none_sem {ls : List SemRow} {rs : List BmRow} {r : JoinRow}
    (h : r ∈ outerMerge ls rs) (hb : r.bm25_score = none) :
    ∃ l ∈ ls, r.sem_score = some l.sem_score := by
  rcases outerMerge_sem_score h with hs | hs
  · exfalso
    rcases outerMerge_sem_none_bm h hs with ⟨b, _, hbb⟩
    rw [hb] at hbb
    exact Option.noConfusion hbb
  · exact hs

/-! ### Non-negativity of BM25 scores (given `ln ≥ 0 on [1, ∞)`) -/

lemma docFreq_le_corpusSize (x : BM25) (t : String) : docFreq x t ≤ corpusSize x :=
  List.length_filter_le _ _

lemma idf_nonneg {lg : ℚ → ℚ} (hlg : ∀ q : ℚ, 1 ≤ q → 0 ≤ lg q) (x : BM25) (t : String) :
    0 ≤ idf lg x t := by
  unfold idf
  split
  · exact le_refl 0
  · refine hlg _ ?_
    have hle : (docFreq x t : ℚ) ≤ (corpusSize x : ℚ) := by
      exact_mod_cast docFreq_le_corpusSize x t
    have hnum : (0 : ℚ) ≤ (corpusSize x : ℚ) - (docFreq x t : ℚ) + 1 / 2 := by linarith
    have hden : (0 : ℚ) ≤ (docFreq x t : ℚ) + 1 / 2 := by positivity
    have : (0 : ℚ) ≤ ((corpusSize x : ℚ) - (docFreq x t : ℚ) + 1 / 2)
        / ((docFreq x t : ℚ) + 1 / 2) := div_nonneg hnum hden
    linarith

lemma avgdl_nonneg (x : BM25) : 0 ≤ avgdl x := by
  unfold avgdl totalLen
  refine div_nonneg ?_ (by positivity)
  refine List.sum_nonneg ?_
  intro a ha
  rcases List.mem_map.mp ha with ⟨dtoks, _, hda⟩
  rw [← hda]
  positivity

lemma tfWeight_nonneg (x : BM25) (dtoks : List String) (t : String) :
    0 ≤ tfWeight x dtoks t := by
  unfold tfWeight
  refine div_nonneg ?_ ?_
  · have : (0 : ℚ) ≤ (termFreq t dtoks : ℚ) := by positivity
    have hk : (0 : ℚ) ≤ k1 + 1 := by norm_num [k1]
    exact mul_nonneg this hk
  · have h1 : (0 : ℚ) ≤ (termFreq t dtoks : ℚ) := by positivity
    have h2 : (0 : ℚ) ≤ bVal * (dtoks.length : ℚ) / avgdl x := by
      refine div_nonneg (mul_nonneg (by norm_num [bVal]) (by positivity)) (avgdl_nonneg x)
    have h3 : (0 : ℚ) ≤ 1 - bVal + bVal * (dtoks.length : ℚ) / avgdl x := by
      rw [show (1 : ℚ) - bVal = 1 / 4 from by norm_num [bVal]]
      linarith
    have h4 : (0 : ℚ) ≤ k1 := by norm_num [k1]
    nlinarith

lemma getD_termVec_nonneg {lg : ℚ → ℚ} (hlg : ∀ q : ℚ, 1 ≤ q → 0 ≤ lg q)
    (x : BM25) (t : String) (d : Nat) : 0 ≤ (termVec lg x t).getD d 0 := by
  rcases Nat.lt_or_ge d (corpusSize x) with hd | hd
  · rw [getD_termVec lg x t d hd]
    exact mul_nonneg (idf_nonneg hlg x t) (tfWeight_nonneg x _ t)
  · rw [List.getD_eq_default _ _ (by rw [length_termVec]; exact hd)]

lemma get_scores_nonneg {lg : ℚ → ℚ} (hlg : ∀ q : ℚ, 1 ≤ q → 0 ≤ lg q)
    (x : BM25) (tokens : List String) {v : ℚ} (hv : v ∈ get_scores lg x tokens) :
    0 ≤ v := by
  rcases List.mem_iff_getElem.mp hv with ⟨d, hd, hdv⟩
  have : v = (get_scores lg x tokens).getD d 0 := by
    rw [List.getD_eq_getElem _ _ hd, hdv]
  rw [this, getD_get_scores]
  refine List.sum_nonneg ?_
  intro a ha
  rcases List.mem_map.mp ha with ⟨t, _, hta⟩
  rw [← hta]
  exact getD_termVec_nonneg hlg x t d

/-! ### Output characterization lemmas -/

lemma search_bm25_score_mem {lg : ℚ → ℚ} {x : BM25} {meta : List Doc} {query : String}
    {top_k : Nat} {row : BmRow} (h : row ∈ search_bm25 lg x meta query top_k) :
    row.bm25_score ∈ get_scores lg x (tokenize query) := by
  unfold search_bm25 at h
  rcases List.mem_map.mp h with ⟨p, hp, hpr⟩
  have h1 : p.2 ∈ (sortByKey (fun p => some p.2)
      (meta.zip (get_scores lg x (tokenize query)))).take top_k := snd_mem_of_mem_enum hp
  have h2 := List.take_subset _ _ h1
  have h3 := (mem_sortByKey _ _ _).mp h2
  have h4 : (p.2.1, p.2.2) ∈ meta.zip (get_scores lg x (tokenize query)) := h3
  have h5 := (List.of_mem_zip h4).2
  have : row.bm25_score = p.2.2 := by rw [← hpr]; rfl
  rw [this]
  exact h5

lemma fuseRows_mem {alpha : ℚ} {j : List JoinRow} {fr : FusedRow}
    (h : fr ∈ fuseRows alpha j) :
    ∃ r ∈ j, fr = fuseOne (colMax (j.map (fun r => r.sem_score)))
      (colMax (j.map (fun r => r.bm25_score))) alpha r := by
  unfold fuseRows at h
  rcases List.mem_map.mp h with ⟨r, hr, hrf⟩
  exact ⟨r, hr, hrf.symm⟩

lemma search_hybrid_mem {semRaw : List SemRow} {lg : ℚ → ℚ} {x : BM25} {meta : List Doc}
    {query : String} {top_k : Nat} {alpha : ℚ} {orow : OutRow}
    (h : orow ∈ search_hybrid semRaw lg x meta query top_k alpha) :
    ∃ fr ∈ fusedTable semRaw lg x meta query top_k alpha,
      orow.hybrid_score = fr.hybrid_score := by
  unfold search_hybrid at h
  rcases List.mem_map.mp h with ⟨p, hp, hpr⟩
  have h1 := snd_mem_of_mem_enum hp
  have h2 := List.take_subset _ _ h1
  have h3 := (mem_sortByKey _ _ _).mp h2
  exact ⟨p.2, h3, by rw [← hpr]; rfl⟩

/-! ### Normalization bounds -/

lemma semNormOf_bounds {col : List (Option ℚ)} {s w : ℚ}
    (hmem : some s ∈ col) (hs : 0 ≤ s)
    (hw : semNormOf (colMax col) (some s) = some w) : 0 ≤ w ∧ w ≤ 1 := by
  rcases hm : colMax col with _ | mv
  · rw [hm] at hw
    have hw0 := Option.some.inj hw
    constructor <;> rw [← hw0] <;> norm_num
  · rw [hm] at hw
    by_cases hmv : mv = 0
    · have h0 : semNormOf (some mv) (some s) = some 0 := by simp [semNormOf, hmv]
      rw [h0] at hw
      have hw0 := Option.some.inj hw
      constructor <;> rw [← hw0] <;> norm_num
    · have h0 : semNormOf (some mv) (some s) = some (1 - s / mv) := by
        simp [semNormOf, hmv]
      rw [h0] at hw
      have hw0 := Option.some.inj hw
      have hsle : s ≤ mv := le_colMax hmem hm
      have hmvpos : 0 < mv := lt_of_le_of_ne (hs.trans hsle) (Ne.symm hmv)
      have hdiv0 : 0 ≤ s / mv := div_nonneg hs (le_of_lt hmvpos)
      have hdiv1 : s / mv ≤ 1 := (div_le_one hmvpos).mpr hsle
      constructor <;> rw [← hw0] <;> linarith

lemma bmNormOf_bounds {col : List (Option ℚ)} {s w : ℚ}
    (hmem : some s ∈ col) (hs : 0 ≤ s)
    (hw : bmNormOf (colMax col) (some s) = some w) : 0 ≤ w ∧ w ≤ 1 := by
  rcases hm : colMax col with _ | mv
  · rw [hm] at hw
    have hw0 := Option.some.inj hw
    constructor <;> rw [← hw0] <;> norm_num
  · rw [hm] at hw
    by_cases hmv : mv = 0
    · have h0 : bmNormOf (some mv) (some s) = some 0 := by simp [bmNormOf, hmv]
      rw [h0] at hw
      have hw0 := Option.some.inj hw
      constructor <;> rw [← hw0] <;> norm_num
    · have h0 : bmNormOf (some mv) (some s) = some (s / mv) := by
        simp [bmNormOf, hmv]
      rw [h0] at hw
      have hw0 := Option.some.inj hw
      have hsle : s ≤ mv := le_colMax hmem hm
      have hmvpos : 0 < mv := lt_of_le_of_ne (hs.trans hsle) (Ne.symm hmv)
      have hdiv0 : 0 ≤ s / mv := div_nonneg hs (le_of_lt hmvpos)
      have hdiv1 : s / mv ≤ 1 := (div_le_one hmvpos).mpr hsle
      constructor <;> rw [← hw0] <;> linarith

lemma hybridOf_bounds {alpha a b h : ℚ}
    (ha : 0 ≤ a ∧ a ≤ 1) (hb : 0 ≤ b ∧ b ≤ 1) (hal : 0 ≤ alpha ∧ alpha ≤ 1)
    (hh : hybridOf alpha (some a) (some b) = some h) : 0 ≤ h ∧ h ≤ 1 := by
  unfold hybridOf at hh
  simp only [Option.some.injEq] at hh
  constructor <;> rw [← hh] <;> nlinarith [ha.1, ha.2, hb.1, hb.2, hal.1, hal.2]

/-! ### Rank and unfolding lemmas -/

lemma length_enum' {β : Type _} (l : List β) : l.enum.length = l.length :=
  length_enumFrom' l 0

lemma pairwise_enumFrom {β : Type _} {R : β → β → Prop} :
    ∀ {l : List β}, l.Pairwise R → ∀ n : Nat,
      (List.enumFrom n l).Pairwise (fun p q => R p.2 q.2) := by
  intro l
  induction l with
  | nil => intro _ n; exact List.Pairwise.nil
  | cons x xs ih =>
    intro h n
    rcases List.pairwise_cons.mp h with ⟨hx, hxs⟩
    refine List.pairwise_cons.mpr ⟨?_, ih hxs (n + 1)⟩
    intro q hq
    exact hx q.2 (snd_mem_of_mem_enumFrom hq)

lemma pairwise_enum {β : Type _} {R : β → β → Prop} {l : List β}
    (h : l.Pairwise R) : l.enum.Pairwise (fun p q => R p.2 q.2) :=
  pairwise_enumFrom h 0

lemma search_bm25_eq (lg : ℚ → ℚ) (x : BM25) (meta : List Doc) (query : String)
    (top_k : Nat) :
    search_bm25 lg x meta query top_k
      = ((sortByKey (fun p => some p.2)
          (meta.zip (get_scores lg x (tokenize query)))).take top_k).enum.map mkBmRow := rfl

lemma search_hybrid_eq (semRaw : List SemRow) (lg : ℚ → ℚ) (x : BM25) (meta : List Doc)
    (query : String) (top_k : Nat) (alpha : ℚ) :
    search_hybrid semRaw lg x meta query top_k alpha
      = ((sortByKey (fun fr => fr.hybrid_score)
          (fusedTable semRaw lg x meta query top_k alpha)).take top_k).enum.map mkOutRow := rfl

lemma ranks_of_enum_map {β γ : Type _} (l : List β) (mk : Nat × β → γ) (rank : γ → Nat)
    (hmk : ∀ p, rank (mk p) = p.1 + 1) :
    (l.enum.map mk).map rank = List.range' 1 (l.enum.map mk).length := by
  rw [List.map_map, List.length_map, length_enum' l]
  have hfn : (rank ∘ mk) = fun p => p.1 + 1 := funext hmk
  rw [hfn]
  exact enum_map_fst_add_one l

/-! ### Normalization case lemmas -/

lemma semNormOf_none_eq_some {m : Option ℚ} {a : ℚ}
    (h : semNormOf m none = some a) : a = 0 := by
  rcases m with _ | mv
  · exact (Option.some.inj h).symm
  · by_cases hmv : mv = 0
    · have h0 : semNormOf (some mv) none = some 0 := by simp [semNormOf, hmv]
      rw [h0] at h
      exact (Option.some.inj h).symm
    · have h0 : semNormOf (some mv) (none : Option ℚ) = none := by simp [semNormOf, hmv]
      rw [h0] at h
      exact Option.noConfusion h

lemma bmNormOf_none_eq_some {m : Option ℚ} {a : ℚ}
    (h : bmNormOf m none = some a) : a = 0 := by
  rcases m with _ | mv
  · exact (Option.some.inj h).symm
  · by_cases hmv : mv = 0
    · have h0 : bmNormOf (some mv) none = some 0 := by simp [bmNormOf, hmv]
      rw [h0] at h
      exact (Option.some.inj h).symm
    · have h0 : bmNormOf (some mv) (none : Option ℚ) = none := by simp [bmNormOf, hmv]
      rw [h0] at h
      exact Option.noConfusion h

lemma semNormOf_some_ex (m : Option ℚ) (s : ℚ) :
    ∃ sv : ℚ, semNormOf m (some s) = some sv := by
  rcases m with _ | mv
  · exact ⟨0, rfl⟩
  · by_cases hmv : mv = 0
    · exact ⟨0, by simp [semNormOf, hmv]⟩
    · exact ⟨1 - s / mv, by simp [semNormOf, hmv]⟩

lemma bmNormOf_some_ex (m : Option ℚ) (s : ℚ) :
    ∃ bv : ℚ, bmNormOf m (some s) = some bv := by
  rcases m with _ | mv
  · exact ⟨0, rfl⟩
  · by_cases hmv : mv = 0
    · exact ⟨0, by simp [bmNormOf, hmv]⟩
    · exact ⟨s / mv, by simp [bmNormOf, hmv]⟩

lemma hybridOf_eq_some {alpha h : ℚ} {sn bn : Option ℚ}
    (hh : hybridOf alpha sn bn = some h) :
    ∃ a b : ℚ, sn = some a ∧ bn = some b ∧ h = alpha * a + (1 - alpha) * b := by
  rcases sn with _ | a <;> rcases bn with _ | b
  · exact Option.noConfusion hh
  · exact Option.noConfusion hh
  · exact Option.noConfusion hh
  · exact ⟨a, b, rfl, rfl, (Option.some.inj hh).symm⟩

lemma map_all_zero_eq_zerosVec {β : Type _} (f : β → ℚ) :
    ∀ l : List β, (∀ y ∈ l, f y = 0) → l.map f = zerosVec l.length := by
  intro l
  induction l with
  | nil => intro _; rfl
  | cons y ys ih =>
    intro h
    have hy := h y (List.mem_cons_self y ys)
    have hys := ih (fun z hz => h z (List.mem_cons_of_mem y hz))
    show f y :: ys.map f = zerosVec (ys.length + 1)
    rw [hy, hys]
    rfl

/-! ## Claim theorems -/

section ConcreteEvaluation

/- Batteries marks the rational-number operations `@[irreducible]`.
Closed statements about concrete queries are settled by kernel
evaluation, which needs those operations unfolded, so they are made
semireducible locally in this section. -/
attribute [local semireducible] Rat.add Rat.mul Rat.inv Rat.sub

/-- C10: `preprocess_text` is total over the modelled Python values:
every non-string input is coerced with `str()` and then
whitespace-processed exactly like a string input (in particular `None`
becomes the string `"None"`), and being a total Lean function it cannot
fail on any input. -/
theorem c10_preprocess_text_total :
    (∀ v : PyValue, preprocess_text v = preprocessString (pyToStr v))
    ∧ preprocess_text PyValue.pyNone = "None"
    ∧ preprocess_text (PyValue.pyStr "  a\t\nb  ") = "a b" :=
  ⟨fun _ => rfl, by decide, by decide⟩

/-- C6: building the lexical index from the empty corpus succeeds (it is
a total function producing the empty index and empty metadata), and any
query against that index returns the empty candidate list, for every
logarithm model, query string and `top_k`. -/
theorem c6_empty_corpus_lexical (lg : ℚ → ℚ) (query : String) (top_k : Nat) :
    build_bm25_index ([] : List Doc) = (⟨[]⟩, ([] : List Doc))
    ∧ search_bm25 lg ⟨[]⟩ [] query top_k = [] := by
  refine ⟨rfl, ?_⟩
  rw [search_bm25_eq]
  have hz : ([] : List Doc).zip (get_scores lg ⟨[]⟩ (tokenize query)) = [] := rfl
  rw [hz]
  have hs : sortByKey (fun p => some p.2) ([] : List (Doc × ℚ)) = [] := rfl
  rw [hs, List.take_nil]
  rfl

/-- C7 counterexample: when the semantic backend call raises (modelled
as `Except.error "timeout"`), `search_hybrid` does not return a ranked
lexical-only result with a warning; the error propagates unchanged, and
in particular the outcome differs from the lexical-driven ranking the
claim promises (the one obtained with an empty semantic stream). -/
theorem c7_counterexample :
    search_hybrid_exc (Except.error "timeout") lgId xA metaA "a" 5 (1 / 2)
        = Except.error "timeout"
    ∧ search_hybrid_exc (Except.error "timeout") lgId xA metaA "a" 5 (1 / 2)
        ≠ Except.ok (search_hybrid [] lgId xA metaA "a" 5 (1 / 2)) :=
  ⟨rfl, fun h => Except.noConfusion h⟩

/-- C7 amended: if the semantic search call fails, `search_hybrid`
performs no recovery at all: the failure propagates to the caller
unchanged, and no lexical-only ranking (and no warning) is produced. -/
theorem c7_amended_error_propagates (e : String) (lg : ℚ → ℚ) (x : BM25)
    (meta : List Doc) (query : String) (top_k : Nat) (alpha : ℚ) :
    search_hybrid_exc (Except.error e) lg x meta query top_k alpha = Except.error e := rfl

/-- C8 counterexample: `search_hybrid` called with `alpha = 2` (outside
`[0,1]`) does not fail fast with a `ConfigError`: it performs the whole
ranking pipeline and returns a ranked list, computed with the weights
`2` and `-1` (note the top score `-1`, outside `[0,1]`); and
`top_k = 0` likewise produces an ordinary empty result, not an error. -/
theorem c8_counterexample :
    search_hybrid semA lgId xA metaA "a" 5 2
      = [⟨1, some (-1), 1, some "en", some "a"⟩, ⟨2, none, 2, some "en", some "a"⟩]
    ∧ search_hybrid semA lgId xA metaA "a" 0 2 = [] := by
  constructor
  · decide
  · decide

/-- C8 amended: `search_hybrid` validates neither `alpha` nor `top_k`:
for every `alpha` (in range or not) it runs the full pipeline — the
result length always equals `min top_k (size of the fused frame)` — and
`top_k = 0` simply yields the empty list; no error path exists. -/
theorem c8_amended_no_validation (semRaw : List SemRow) (lg : ℚ → ℚ) (x : BM25)
    (meta : List Doc) (query : String) (k : Nat) (alpha : ℚ) :
    search_hybrid semRaw lg x meta query 0 alpha = []
    ∧ (search_hybrid semRaw lg x meta query k alpha).length
        = min k (fusedTable semRaw lg x meta query k alpha).length := by
  constructor
  · rfl
  · rw [search_hybrid_eq, List.length_map, length_enum', List.length_take, length_sortByKey]

/-- C9: for every corpus, query and configuration, both `search_bm25`
and `search_hybrid` return at most `top_k` rows, and the `rank` column
is exactly `1, 2, ..., len` in list order, with no gaps or repeats. -/
theorem c9_length_and_ranks (semRaw : List SemRow) (lg : ℚ → ℚ) (x : BM25)
    (meta : List Doc) (query : String) (k : Nat) (alpha : ℚ) :
    (search_bm25 lg x meta query k).length ≤ k
    ∧ (search_bm25 lg x meta query k).map (fun r => r.rank)
        = List.range' 1 (search_bm25 lg x meta query k).length
    ∧ (search_hybrid semRaw lg x meta query k alpha).length ≤ k
    ∧ (search_hybrid semRaw lg x meta query k alpha).map (fun r => r.rank)
        = List.range' 1 (search_hybrid semRaw lg x meta query k alpha).length := by
  refine ⟨?_, ?_, ?_, ?_⟩
  · rw [search_bm25_eq, List.length_map, length_enum', List.length_take]
    exact Nat.min_le_left _ _
  · rw [search_bm25_eq]
    exact ranks_of_enum_map _ mkBmRow (fun r => r.rank) (fun p => rfl)
  · rw [search_hybrid_eq, List.length_map, length_enum', List.length_take]
    exact Nat.min_le_left _ _
  · rw [search_hybrid_eq]
    exact ranks_of_enum_map _ mkOutRow (fun r => r.rank) (fun p => rfl)

/-- C4: for every non-empty corpus and query, the lexical raw score of
document `d` computed by `get_scores` equals the BM25 sum over the query
tokens of `IDF(t) · f(t,d)·(k1+1) / (f(t,d) + k1·(1-b+b·|d|/avgdl))`
(with `k1 = 3/2`, `b = 3/4` and `IDF` as in `idf`), and every term with
document frequency `0` (absent from the corpus) contributes the zero
vector to every document's score. -/
theorem c4_bm25_formula (lg : ℚ → ℚ) (corpus : List Doc) (hc : corpus ≠ [])
    (query : String) (d : Nat) (hd : d < corpusSize (build_bm25_index corpus).1) :
    (get_scores lg (build_bm25_index corpus).1 (tokenize query)).getD d 0
      = ((tokenize query).map (fun t =>
          idf lg (build_bm25_index corpus).1 t
            * tfWeight (build_bm25_index corpus).1
                (docTokens (build_bm25_index corpus).1 d) t)).sum
    ∧ ∀ t : String, docFreq (build_bm25_index corpus).1 t = 0 →
        termVec lg (build_bm25_index corpus).1 t
          = zerosVec (corpusSize (build_bm25_index corpus).1) := by
  constructor
  · rw [getD_get_scores]
    refine congrArg List.sum ?_
    refine List.map_congr_left ?_
    intro t _
    exact getD_termVec lg _ t d hd
  · intro t ht
    have hidf : idf lg (build_bm25_index corpus).1 t = 0 := by
      unfold idf
      rw [if_pos ht]
    unfold termVec
    have hz : ∀ dtoks ∈ (build_bm25_index corpus).1.tokenized,
        idf lg (build_bm25_index corpus).1 t
          * tfWeight (build_bm25_index corpus).1 dtoks t = 0 := by
      intro dtoks _
      rw [hidf, zero_mul]
    rw [map_all_zero_eq_zerosVec _ _ hz]
    rfl

/-- C4 witness: the formula instantiated on the one-document corpus
`corpusW` and the query `"a"` at document `0`. -/
theorem c4_witness :
    (get_scores lgId (build_bm25_index corpusW).1 (tokenize "a")).getD 0 0
      = ((tokenize "a").map (fun t =>
          idf lgId (build_bm25_index corpusW).1 t
            * tfWeight (build_bm25_index corpusW).1
                (docTokens (build_bm25_index corpusW).1 0) t)).sum :=
  (c4_bm25_formula lgId corpusW (by decide) "a" 0 (by decide)).1

/-- C3: each stream of the fused frame is normalized independently.
With `m` the spec-side maximum raw score of a stream over the joined
candidates: if there are no candidates carrying a score (`m` missing) or
`m = 0`, every normalized score of that stream is `0`; otherwise every
row carrying a raw semantic score `s` gets `1 - s/m` and every row
carrying a raw lexical score `s` gets `s/m`. -/
theorem c3_per_stream_normalization (semRaw : List SemRow) (lg : ℚ → ℚ) (x : BM25)
    (meta : List Doc) (query : String) (k : Nat) (alpha : ℚ) (fr : FusedRow)
    (hfr : fr ∈ fusedTable semRaw lg x meta query k alpha) :
    (specStreamMax ((joinedTable semRaw lg x meta query k).map (fun r => r.sem_score)) = none
      → fr.sem_norm = some 0)
    ∧ (specStreamMax ((joinedTable semRaw lg x meta query k).map (fun r => r.sem_score)) = some 0
      → fr.sem_norm = some 0)
    ∧ (∀ mv s : ℚ,
        specStreamMax ((joinedTable semRaw lg x meta query k).map (fun r => r.sem_score)) = some mv
        → mv ≠ 0 → fr.sem_score = some s → fr.sem_norm = some (1 - s / mv))
    ∧ (specStreamMax ((joinedTable semRaw lg x meta query k).map (fun r => r.bm25_score)) = none
      → fr.bm25_norm = some 0)
    ∧ (specStreamMax ((joinedTable semRaw lg x meta query k).map (fun r => r.bm25_score)) = some 0
      → fr.bm25_norm = some 0)
    ∧ (∀ mv s : ℚ,
        specStreamMax ((joinedTable semRaw lg x meta query k).map (fun r => r.bm25_score)) = some mv
        → mv ≠ 0 → fr.bm25_score = some s → fr.bm25_norm = some (s / mv)) := by
  have hft : fusedTable semRaw lg x meta query k alpha
      = fuseRows alpha (joinedTable semRaw lg x meta query k) := rfl
  rw [hft] at hfr
  obtain ⟨r, hrj, hfx⟩ := fuseRows_mem hfr
  subst hfx
  have hsn : (fuseOne (colMax ((joinedTable semRaw lg x meta query k).map (fun r => r.sem_score)))
      (colMax ((joinedTable semRaw lg x meta query k).map (fun r => r.bm25_score))) alpha r).sem_norm
      = semNormOf (colMax ((joinedTable semRaw lg x meta query k).map (fun r => r.sem_score)))
          r.sem_score := rfl
  have hbn : (fuseOne (colMax ((joinedTable semRaw lg x meta query k).map (fun r => r.sem_score)))
      (colMax ((joinedTable semRaw lg x meta query k).map (fun r => r.bm25_score))) alpha r).bm25_norm
      = bmNormOf (colMax ((joinedTable semRaw lg x meta query k).map (fun r => r.bm25_score)))
          r.bm25_score := rfl
  refine ⟨?_, ?_, ?_, ?_, ?_, ?_⟩
  · intro h
    rw [← colMax_eq_specStreamMax] at h
    rw [hsn, h]
    rfl
  · intro h
    rw [← colMax_eq_specStreamMax] at h
    rw [hsn, h]
    rcases r.sem_score with _ | s <;> simp [semNormOf]
  · intro mv s hm hmv hs
    rw [← colMax_eq_specStreamMax] at hm
    have hs2 : r.sem_score = some s := hs
    rw [hsn, hm, hs2]
    simp [semNormOf, hmv]
  · intro h
    rw [← colMax_eq_specStreamMax] at h
    rw [hbn, h]
    rfl
  · intro h
    rw [← colMax_eq_specStreamMax] at h
    rw [hbn, h]
    rcases r.bm25_score with _ | s <;> simp [bmNormOf]
  · intro mv s hm hmv hs
    rw [← colMax_eq_specStreamMax] at hm
    have hs2 : r.bm25_score = some s := hs
    rw [hbn, hm, hs2]
    simp [bmNormOf, hmv]

/-- C3 witness: on `corpusW` with the all-zero-distance semantic set
`semW`, the semantic maximum is `0` so the semantic normalized score is
`0`, and the lexical score `4/3` normalizes to `(4/3)/(4/3) = 1`. -/
theorem c3_witness :
    ((fusedTable semW lgId xW metaW "a" 5 (1 / 2)).headD defaultFused).sem_norm = some 0
    ∧ ((fusedTable semW lgId xW metaW "a" 5 (1 / 2)).headD defaultFused).bm25_norm = some 1 := by
  have h := c3_per_stream_normalization semW lgId xW metaW "a" 5 (1 / 2)
    ((fusedTable semW lgId xW metaW "a" 5 (1 / 2)).headD defaultFused) (by decide)
  refine ⟨h.2.1 (by decide), ?_⟩
  have h6 := h.2.2.2.2.2 (4 / 3) (4 / 3) (by decide) (by decide) (by decide)
  exact h6.trans (by decide)

/-- C1 counterexample: document 2 of `corpusA` appears only in the
lexical candidate set (the semantic set `semA` holds only document 1,
with a nonzero maximal distance), so the claim predicts
`hybrid = (1 - alpha) * bm25_norm = some (1/2)`; the code instead
produces a missing (`NaN`) hybrid score for it, and `none` is not
`some ((1 - 1/2) * 1)`. -/
theorem c1_counterexample :
    ((search_hybrid semA lgId xA metaA "a" 5 (1 / 2)).filter
        (fun r => r.doc_id == 2)).map (fun r => r.hybrid_score) = [none]
    ∧ (none : Option ℚ) ≠ some ((1 - 1 / 2) * 1) := by
  constructor
  · decide
  · decide

/-- C1 amended: in the fused frame, a document carrying no raw score for
one stream gets that stream's normalized score (and hence its hybrid
score) as missing (`NaN`) whenever that stream's column maximum is
present and nonzero; only when the missing stream has no scores at all
or a zero maximum is its normalized score `0`, and only then does the
hybrid score equal the present stream's weight times its normalized
score. -/
theorem c1_missing_stream (semRaw : List SemRow) (lg : ℚ → ℚ) (x : BM25)
    (meta : List Doc) (query : String) (k : Nat) (alpha : ℚ) (fr : FusedRow)
    (hfr : fr ∈ fusedTable semRaw lg x meta query k alpha) :
    (fr.sem_score = none →
      (∀ mv : ℚ,
        colMax ((joinedTable semRaw lg x meta query k).map (fun r => r.sem_score)) = some mv
        → mv ≠ 0 → fr.hybrid_score = none)
      ∧ ((colMax ((joinedTable semRaw lg x meta query k).map (fun r => r.sem_score)) = none
          ∨ colMax ((joinedTable semRaw lg x meta query k).map (fun r => r.sem_score)) = some 0)
        → ∃ bv : ℚ, fr.bm25_norm = some bv ∧ fr.hybrid_score = some ((1 - alpha) * bv)))
    ∧ (fr.bm25_score = none →
      (∀ mv : ℚ,
        colMax ((joinedTable semRaw lg x meta query k).map (fun r => r.bm25_score)) = some mv
        → mv ≠ 0 → fr.hybrid_score = none)
      ∧ ((colMax ((joinedTable semRaw lg x meta query k).map (fun r => r.bm25_score)) = none
          ∨ colMax ((joinedTable semRaw lg x meta query k).map (fun r => r.bm25_score)) = some 0)
        → ∃ sv : ℚ, fr.sem_norm = some sv ∧ fr.hybrid_score = some (alpha * sv))) := by
  have hft : fusedTable semRaw lg x meta query k alpha
      = fuseRows alpha (joinedTable semRaw lg x meta query k) := rfl
  rw [hft] at hfr
  obtain ⟨r, hrj, hfx⟩ := fuseRows_mem hfr
  subst hfx
  constructor
  · intro hsem
    have hsem2 : r.sem_score = none := hsem
    constructor
    · intro mv hm hmv
      show hybridOf alpha
          (semNormOf (colMax ((joinedTable semRaw lg x meta query k).map (fun r => r.sem_score)))
            r.sem_score)
          (bmNormOf (colMax ((joinedTable semRaw lg x meta query k).map (fun r => r.bm25_score)))
            r.bm25_score) = none
      rw [hsem2, hm]
      have h0 : semNormOf (some mv) (none : Option ℚ) = none := by simp [semNormOf, hmv]
      rw [h0]
      rcases bmNormOf (colMax ((joinedTable semRaw lg x meta query k).map (fun r => r.bm25_score)))
        r.bm25_score with _ | b
      · rfl
      · rfl
    · intro hor
      obtain ⟨bcand, hbc, hbm⟩ := outerMerge_sem_none_bm hrj hsem2
      obtain ⟨bv, hbv⟩ :=
        bmNormOf_some_ex (colMax ((joinedTable semRaw lg x meta query k).map (fun r => r.bm25_score)))
          bcand.bm25_score
      refine ⟨bv, ?_, ?_⟩
      · show bmNormOf (colMax ((joinedTable semRaw lg x meta query k).map (fun r => r.bm25_score)))
            r.bm25_score = some bv
        rw [hbm]
        exact hbv
      · show hybridOf alpha
            (semNormOf (colMax ((joinedTable semRaw lg x meta query k).map (fun r => r.sem_score)))
              r.sem_score)
            (bmNormOf (colMax ((joinedTable semRaw lg x meta query k).map (fun r => r.bm25_score)))
              r.bm25_score) = some ((1 - alpha) * bv)
        rw [hsem2, hbm, hbv]
        have hsn0 : semNormOf
            (colMax ((joinedTable semRaw lg x meta query k).map (fun r => r.sem_score)))
            (none : Option ℚ) = some 0 := by
          rcases hor with h | h <;> rw [h] <;> simp [semNormOf]
        rw [hsn0]
        show some (alpha * 0 + (1 - alpha) * bv) = some ((1 - alpha) * bv)
        exact congrArg some (by ring)
  · intro hbm0
    have hbm2 : r.bm25_score = none := hbm0
    constructor
    · intro mv hm hmv
      show hybridOf alpha
          (semNormOf (colMax ((joinedTable semRaw lg x meta query k).map (fun r => r.sem_score)))
            r.sem_score)
          (bmNormOf (colMax ((joinedTable semRaw lg x meta query k).map (fun r => r.bm25_score)))
            r.bm25_score) = none
      rw [hbm2, hm]
      have h0 : bmNormOf (some mv) (none : Option ℚ) = none := by simp [bmNormOf, hmv]
      rw [h0]
      rcases hsn : semNormOf
          (colMax ((joinedTable semRaw lg x meta query k).map (fun r => r.sem_score)))
          r.sem_score with _ | a
      · rw [hsn]
        rfl
      · rw [hsn]
        rfl
    · intro hor
      obtain ⟨lcand, hlc, hls⟩ := outerMerge_bm_none_sem hrj hbm2
      obtain ⟨sv, hsv⟩ :=
        semNormOf_some_ex (colMax ((joinedTable semRaw lg x meta query k).map (fun r => r.sem_score)))
          lcand.sem_score
      refine ⟨sv, ?_, ?_⟩
      · show semNormOf (colMax ((joinedTable semRaw lg x meta query k).map (fun r => r.sem_score)))
            r.sem_score = some sv
        rw [hls]
        exact hsv
      · show hybridOf alpha
            (semNormOf (colMax ((joinedTable semRaw lg x meta query k).map (fun r => r.sem_score)))
              r.sem_score)
            (bmNormOf (colMax ((joinedTable semRaw lg x meta query k).map (fun r => r.bm25_score)))
              r.bm25_score) = some (alpha * sv)
        rw [hls, hsv, hbm2]
        have hbn0 : bmNormOf
            (colMax ((joinedTable semRaw lg x meta query k).map (fun r => r.bm25_score)))
            (none : Option ℚ) = some 0 := by
          rcases hor with h | h <;> rw [h] <;> simp [bmNormOf]
        rw [hbn0]
        show some (alpha * sv + (1 - alpha) * 0) = some (alpha * sv)
        exact congrArg some (by ring)

/-- C1 witness: with an empty semantic candidate set over `corpusW`, the
(bm-only) fused row falls in the zero-semantic-maximum branch, and its
hybrid score is the lexical weight `1 - 1/2` times its lexical
normalized score `1`. -/
theorem c1_witness :
    ((fusedTable [] lgId xW metaW "a" 5 (1 / 2)).headD defaultFused).hybrid_score
      = some ((1 - 1 / 2) * 1) := by
  obtain ⟨bv, hbv, hh⟩ :=
    ((c1_missing_stream [] lgId xW metaW "a" 5 (1 / 2)
        ((fusedTable [] lgId xW metaW "a" 5 (1 / 2)).headD defaultFused) (by decide)).1
      (by decide)).2 (Or.inl (by decide))
  have hbv2 : ((fusedTable [] lgId xW metaW "a" 5 (1 / 2)).headD defaultFused).bm25_norm
      = some 1 := by decide
  have hbv1 : bv = 1 := Option.some.inj (hbv.symm.trans hbv2)
  rw [hbv1] at hh
  exact hh

/-- C2 counterexample: with `alpha = 1/3`, document 2 of `corpusA` is
lexical-only, its hybrid score is missing (`NaN`), and a missing score
does not lie in `[0,1]`. -/
theorem c2_counterexample :
    (search_hybrid semA lgId xA metaA "a" 5 (1 / 3)).map (fun r => r.hybrid_score)
      = [some (2 / 3), none]
    ∧ ¬ scoreInUnit none := by
  refine ⟨by decide, ?_⟩
  rintro ⟨h, hh, _⟩
  exact Option.noConfusion hh

/-- C2 amended: under the spec's own side conditions — `alpha ∈ [0,1]`,
non-negative semantic distances (the adapter contract) and a logarithm
non-negative on `[1, ∞)` (true of `ln`) — every hybrid score that is
actually present (not `NaN`) lies in `[0,1]`; missing hybrid scores (see
the counterexample) are the only exception. -/
theorem c2_present_scores_unit (semRaw : List SemRow) (lg : ℚ → ℚ) (x : BM25)
    (meta : List Doc) (query : String) (k : Nat) (alpha : ℚ)
    (hlg : ∀ q : ℚ, 1 ≤ q → 0 ≤ lg q) (ha0 : 0 ≤ alpha) (ha1 : alpha ≤ 1)
    (hsem : ∀ srow ∈ semRaw, 0 ≤ srow.sem_score) :
    ∀ orow ∈ search_hybrid semRaw lg x meta query k alpha,
      ∀ h : ℚ, orow.hybrid_score = some h → 0 ≤ h ∧ h ≤ 1 := by
  intro orow ho h hh
  obtain ⟨fr, hfr, hofr⟩ := search_hybrid_mem ho
  rw [hofr] at hh
  have hft : fusedTable semRaw lg x meta query k alpha
      = fuseRows alpha (joinedTable semRaw lg x meta query k) := rfl
  rw [hft] at hfr
  obtain ⟨r, hrj, hfx⟩ := fuseRows_mem hfr
  subst hfx
  have hh2 : hybridOf alpha
      (semNormOf (colMax ((joinedTable semRaw lg x meta query k).map (fun r => r.sem_score)))
        r.sem_score)
      (bmNormOf (colMax ((joinedTable semRaw lg x meta query k).map (fun r => r.bm25_score)))
        r.bm25_score) = some h := hh
  obtain ⟨a, b, hsa, hbb, hhab⟩ := hybridOf_eq_some hh2
  have ha : 0 ≤ a ∧ a ≤ 1 := by
    rcases hss : r.sem_score with _ | s
    · rw [hss] at hsa
      have ha0' := semNormOf_none_eq_some hsa
      constructor <;> rw [ha0'] <;> norm_num
    · have hs0 : 0 ≤ s := by
        rcases outerMerge_sem_score hrj with hnone | ⟨l, hl, heq⟩
        · rw [hss] at hnone
          exact absurd hnone (by simp)
        · have h5 : s = l.sem_score := Option.some.inj (hss.symm.trans heq)
          rw [h5]
          exact hsem l hl
      have hmem : some s ∈ (joinedTable semRaw lg x meta query k).map (fun r => r.sem_score) := by
        rw [← hss]
        exact List.mem_map_of_mem _ hrj
      rw [hss] at hsa
      exact semNormOf_bounds hmem hs0 hsa
  have hb : 0 ≤ b ∧ b ≤ 1 := by
    rcases hbs : r.bm25_score with _ | t
    · rw [hbs] at hbb
      have hb0' := bmNormOf_none_eq_some hbb
      constructor <;> rw [hb0'] <;> norm_num
    · have ht0 : 0 ≤ t := by
        rcases outerMerge_bm_score hrj with hnone | ⟨bcand, hbc, heq⟩
        · rw [hbs] at hnone
          exact absurd hnone (by simp)
        · have h5 : t = bcand.bm25_score := Option.some.inj (hbs.symm.trans heq)
          rw [h5]
          exact get_scores_nonneg hlg x _ (search_bm25_score_mem hbc)
      have hmem : some t ∈ (joinedTable semRaw lg x meta query k).map (fun r => r.bm25_score) := by
        rw [← hbs]
        exact List.mem_map_of_mem _ hrj
      rw [hbs] at hbb
      exact bmNormOf_bounds hmem ht0 hbb
  constructor <;> rw [hhab] <;> nlinarith [ha.1, ha.2, hb.1, hb.2]

/-- C2 witness: the bound instantiated on a concrete one-row hybrid
query (zero logarithm, zero distance, `alpha = 1/2`), whose only hybrid
score is `some 0`. -/
theorem c2_witness :
    scoreInUnit ((search_hybrid semW lgZero xW metaW "a" 5 (1 / 2)).headD defaultOut).hybrid_score := by
  have hrow : ((search_hybrid semW lgZero xW metaW "a" 5 (1 / 2)).headD defaultOut).hybrid_score
      = some 0 := by decide
  have hb := c2_present_scores_unit semW lgZero xW metaW "a" 5 (1 / 2)
    (fun q hq => le_refl 0) (by norm_num) (by norm_num) (by decide)
    ((search_hybrid semW lgZero xW metaW "a" 5 (1 / 2)).headD defaultOut) (by decide) 0 hrow
  exact ⟨0, hrow, hb⟩

/-- C5 counterexample: on the corpus `corpusT` (doc_ids 5 and 3, in that
order, with identical texts), the query `"x"` gives both documents equal
BM25 scores, and `search_bm25` returns them in corpus order `5, 3` —
descending, not ascending, `doc_id` — so the claimed ascending-`doc_id`
tie-break (`bmSortedClaim`) fails on the output. -/
theorem c5_counterexample :
    bmSortedClaim (search_bm25 lgId xT metaT "x" 5) = false
    ∧ (search_bm25 lgId xT metaT "x" 5).map (fun r => (r.doc_id, r.bm25_score))
        = [(5, 6 / 5), (3, 6 / 5)] := by
  constructor
  · decide
  · decide

/-- C5 amended: both outputs are sorted in descending score order, with
missing (`NaN`) hybrid scores at the bottom; the order of equal-score
candidates is the pre-sort row order (corpus order / join order), not
ascending `doc_id`, and the functions are deterministic because they are
pure functions of their inputs. -/
theorem c5_sorted_descending (semRaw : List SemRow) (lg : ℚ → ℚ) (x : BM25)
    (meta : List Doc) (query : String) (k : Nat) (alpha : ℚ) :
    ((search_bm25 lg x meta query k).map (fun r => r.bm25_score)).Pairwise (fun a b => b ≤ a)
    ∧ ((search_hybrid semRaw lg x meta query k alpha).map (fun r => r.hybrid_score)).Pairwise
        optDescLe := by
  constructor
  · rw [search_bm25_eq, List.map_map, List.pairwise_map]
    have hp := pairwise_sortByKey (fun p : Doc × ℚ => some p.2)
      (meta.zip (get_scores lg x (tokenize query)))
    rw [List.pairwise_map] at hp
    have hp2 := List.Pairwise.sublist (List.take_sublist k _) hp
    have hp3 := pairwise_enum hp2
    exact hp3.imp (fun h => h)
  · rw [search_hybrid_eq, List.map_map, List.pairwise_map]
    have hp := pairwise_sortByKey (fun fr : FusedRow => fr.hybrid_score)
      (fusedTable semRaw lg x meta query k alpha)
    rw [List.pairwise_map] at hp
    have hp2 := List.Pairwise.sublist (List.take_sublist k _) hp
    have hp3 := pairwise_enum hp2
    exact hp3.imp (fun h => h)

end ConcreteEvaluation

end MultilingualIR
